import Mathlib

set_option maxRecDepth 8000
set_option maxHeartbeats 1000000

/-!
Verification development for `fast_format.py` (Mnemosyne "Fast Format" plugin).

The transformation core of the plugin is embedded shallowly:

* a small regular-expression engine modelling the subset of Python 2.7 `re`
  exercised by the plugin (literals, escaped literals, character classes,
  `.` with DOTALL, `^`, alternation, greedy and lazy `*`, capturing and
  non-capturing groups), with Python's leftmost, backtracking-priority match
  order and per-match capture-group bindings;
* `re.sub` (global substitution with replacement templates `\1`, `\2`, ...,
  Python 2's pre-3.7 rule that an empty match adjacent to a previous match is
  skipped, and Python 2's behaviour of validating the replacement template
  against the pattern's group count before scanning);
* `re.split` with a capturing group (pieces alternate between non-matching
  text and the group-1 capture of each match; zero-width matches never split);
* the plugin's own functions `compile_formats`, `format`, `strip_tags`,
  `thread_tags`, and its `default_formats` table, translated line by line.

Matching works on `List Char`.  Recursions are driven by an explicit fuel
argument that is decremented on every recursive call so that every function
is structurally recursive (and hence evaluates by kernel reduction); public
wrappers instantiate the fuel with a value large enough that it is never
exhausted on the call's input (each engine step either shortens the input or
shrinks the regex, so `(length + 1) * (size + 2) + 10` steps always suffice;
running out of fuel would return "no match" / the unconsumed text).
-/

/-- One item of a character class: a single character or a range. -/
inductive ClsIt where
  | one (c : Char)
  | rng (lo hi : Char)
deriving Repr, DecidableEq

/-- Regular-expression abstract syntax (the subset used by the plugin).
`dot` always has DOTALL semantics: every pattern in the source is compiled
with `re.DOTALL` (and the tag-splitting patterns contain no `.`). -/
inductive RE where
  | eps
  | ch (c : Char)
  | cls (neg : Bool) (items : List ClsIt)
  | dot
  | bos
  | seq (a b : RE)
  | alt (a b : RE)
  | star (greedy : Bool) (a : RE)
  | grp (idx : Nat) (a : RE)
deriving Repr, DecidableEq

def clsItMem (c : Char) : ClsIt → Bool
  | .one d => c == d
  | .rng lo hi => decide (lo ≤ c) && decide (c ≤ hi)

/-- Character-class membership (`neg` for a `[^...]` class). -/
def clsMem (neg : Bool) (items : List ClsIt) (c : Char) : Bool :=
  (items.any (clsItMem c)) != neg

/-- Capture-group bindings of one match attempt, most recent first. -/
abbrev Caps := List (Nat × List Char)

def capLookup (i : Nat) : Caps → Option (List Char)
  | [] => none
  | (j, v) :: rest => if j = i then some v else capLookup i rest

def capLookupD (i : Nat) (cp : Caps) (d : List Char) : List Char :=
  (capLookup i cp).getD d

/-- All ways `re` can match a prefix of `s`, in Python's backtracking
priority order (the head is the match the engine commits to).  Each result
is the unconsumed suffix together with the capture bindings.  `atst` records
whether the current position is the absolute start of the subject (for `^`).
A `*` iteration that consumes nothing is cut, as in Python's engine.
The fuel `n` is decremented on every recursive call. -/
def mtchF : Nat → RE → List Char → Bool → Caps → List (List Char × Caps)
  | 0, _, _, _, _ => []
  | _ + 1, .eps, s, _, cp => [(s, cp)]
  | _ + 1, .ch c, s, _, cp =>
    match s with
    | [] => []
    | d :: rest => if d = c then [(rest, cp)] else []
  | _ + 1, .cls neg items, s, _, cp =>
    match s with
    | [] => []
    | d :: rest => if clsMem neg items d then [(rest, cp)] else []
  | _ + 1, .dot, s, _, cp =>
    match s with
    | [] => []
    | _ :: rest => [(rest, cp)]
  | _ + 1, .bos, s, atst, cp => if atst then [(s, cp)] else []
  | n + 1, .seq a b, s, atst, cp =>
    (mtchF n a s atst cp).flatMap (fun rc =>
      mtchF n b rc.1 (atst && (rc.1.length == s.length)) rc.2)
  | n + 1, .alt a b, s, atst, cp =>
    mtchF n a s atst cp ++ mtchF n b s atst cp
  | n + 1, .star g a, s, atst, cp =>
    if g then
      (((mtchF n a s atst cp).filter
          (fun rc => decide (rc.1.length < s.length))).flatMap
        (fun rc => mtchF n (.star g a) rc.1 false rc.2)) ++ [(s, cp)]
    else
      (s, cp) :: (((mtchF n a s atst cp).filter
          (fun rc => decide (rc.1.length < s.length))).flatMap
        (fun rc => mtchF n (.star g a) rc.1 false rc.2))
  | n + 1, .grp i a, s, atst, cp =>
    (mtchF n a s atst cp).map
      (fun rc => (rc.1, (i, s.take (s.length - rc.1.length)) :: rc.2))

def sizeRE : RE → Nat
  | .eps => 1
  | .ch _ => 1
  | .cls _ _ => 1
  | .dot => 1
  | .bos => 1
  | .seq a b => sizeRE a + sizeRE b + 1
  | .alt a b => sizeRE a + sizeRE b + 1
  | .star _ a => sizeRE a + 1
  | .grp _ a => sizeRE a + 1

/-- Fuel that is always sufficient for `mtchF re` on `s` (every recursive
call decreases the lexicographic measure (input length, regex size)). -/
def fuelFor (re : RE) (s : List Char) : Nat :=
  (s.length + 1) * (sizeRE re + 2) + 10

/-- Leftmost match search (`re.search` as used by `sub`): try the pattern at
each position from the left; at the first position where it matches, commit
to the engine's priority match.  Returns (text before the match, matched
text, captures, text after the match). -/
def searchFrom (fl : Nat) (re : RE) :
    List Char → Bool → Option (List Char × List Char × Caps × List Char)
  | s, atst =>
    match (mtchF fl re s atst []).head? with
    | some rc => some ([], s.take (s.length - rc.1.length), rc.2, rc.1)
    | none =>
      match s with
      | [] => none
      | c :: s' =>
        (searchFrom fl re s' false).map
          (fun q => (c :: q.1, q.2.1, q.2.2.1, q.2.2.2))

/-- Leftmost nonempty-match search, as used by Python 2 `re.split`: a
position whose match is zero-width is skipped (zero-width matches never
split in Python 2). -/
def searchNE (fl : Nat) (re : RE) :
    List Char → Bool → Option (List Char × List Char × Caps × List Char)
  | s, atst =>
    match (mtchF fl re s atst []).head? with
    | some rc =>
      if rc.1.length < s.length then
        some ([], s.take (s.length - rc.1.length), rc.2, rc.1)
      else
        match s with
        | [] => none
        | c :: s' =>
          (searchNE fl re s' false).map
            (fun q => (c :: q.1, q.2.1, q.2.2.1, q.2.2.2))
    | none =>
      match s with
      | [] => none
      | c :: s' =>
        (searchNE fl re s' false).map
          (fun q => (c :: q.1, q.2.1, q.2.2.1, q.2.2.2))

/-- The `re.error` exceptions that scanning and substitution can raise.
The plugin's `except re.error` handlers catch exactly these. -/
inductive RErr where
  | invalidGroupRef
  | unmatchedGroup
  | badTemplate
deriving Repr, DecidableEq

/-- An exception escaping `regex.sub`: either an `re.error`, or the
`IndexError` that Python 2.7's `sre_parse.parse_template` raises for a
`\g<name>` reference whose name is not a group of the pattern.  The latter
is NOT caught by `except re.error`. -/
inductive PyErr where
  | reErr (e : RErr)
  | idxErr
deriving Repr, DecidableEq

/-- One token of a parsed replacement template: a literal character or an
unchecked group reference (a `MARK` entry of Python 2.7's template). -/
inductive TItem where
  | lit (c : Char)
  | ref (n : Nat)
deriving Repr, DecidableEq

def digVal (c : Char) : Nat := c.toNat - 48

/-- `int(·)` on a string of decimal digits (as used for template group
names and for the digit captures produced by splitting with
`thread_re`). -/
def decToNat (ds : List Char) : Nat :=
  ds.foldl (fun a c => 10 * a + digVal c) 0

def isOctDig (c : Char) : Bool := decide ('0' ≤ c) && decide (c ≤ '7')

/-- `sre_parse.isname`: an ASCII identifier. -/
def isName (s : List Char) : Bool :=
  match s with
  | [] => false
  | c :: rest =>
    (c.isAlpha || c == '_') &&
      rest.all (fun d => d.isAlpha || d == '_' || d.isDigit)

/-- The known template escapes (`sre_parse.ESCAPES`). -/
def escCode : Char → Option Char
  | 'a' => some (Char.ofNat 7)
  | 'b' => some (Char.ofNat 8)
  | 'f' => some (Char.ofNat 12)
  | 'n' => some (Char.ofNat 10)
  | 'r' => some (Char.ofNat 13)
  | 't' => some (Char.ofNat 9)
  | 'v' => some (Char.ofNat 11)
  | '\\' => some '\\'
  | _ => none

/-- Read a `\g<name>` group name up to the closing `>` (an unterminated
name is an `re.error`). -/
def tmplName : List Char → Except PyErr (List Char × List Char)
  | [] => .error (.reErr .badTemplate)
  | '>' :: rest => .ok ([], rest)
  | c :: rest => (tmplName rest).map (fun p => (c :: p.1, p.2))

/-- `sre_parse.parse_template` with Python 2.7 semantics: numeric group
references (`\1`, `\12`, `\g<2>`) are emitted UNCHECKED — they are only
validated per match during expansion; `\0` and three-octal-digit escapes
are literal characters; the escapes of `ESCAPES` are control characters;
an unknown two-character escape stays as backslash plus character; a
template ending in a lone backslash is a "bogus escape" `re.error` raised
on every call; and a `\g<name>` whose name is an identifier raises
`IndexError` ("unknown group name"), because no pattern of the plugin
defines named groups and so `pattern.groupindex` is empty — that exception
is not an `re.error`.  The fuel falls by one per step and never runs out
on its own input. -/
def tmplGo : Nat → List Char → Except PyErr (List TItem)
  | 0, _ => .error (.reErr .badTemplate)
  | n + 1, tpl =>
    match tpl with
    | [] => .ok []
    | '\\' :: rest =>
      match rest with
      | [] => .error (.reErr .badTemplate)
      | 'g' :: rest1 =>
        match rest1 with
        | '<' :: rest2 =>
          match tmplName rest2 with
          | .error e => .error e
          | .ok (nm, rest3) =>
            if nm.isEmpty then .error (.reErr .badTemplate)
            else if nm.all Char.isDigit then
              (tmplGo n rest3).map (fun ts => .ref (decToNat nm) :: ts)
            else if isName nm then .error .idxErr
            else .error (.reErr .badTemplate)
        | _ => .error (.reErr .badTemplate)
      | '0' :: rest1 =>
        match rest1 with
        | [] => .ok [.lit (Char.ofNat 0)]
        | d1 :: rest2 =>
          if isOctDig d1 then
            match rest2 with
            | [] => .ok [.lit (Char.ofNat (digVal d1))]
            | d2 :: rest3 =>
              if isOctDig d2 then
                (tmplGo n rest3).map (fun ts =>
                  .lit (Char.ofNat (8 * digVal d1 + digVal d2)) :: ts)
              else
                (tmplGo n rest2).map (fun ts =>
                  .lit (Char.ofNat (digVal d1)) :: ts)
          else
            (tmplGo n rest1).map (fun ts => .lit (Char.ofNat 0) :: ts)
      | c :: rest1 =>
        if c.isDigit then
          match rest1 with
          | [] => .ok [.ref (digVal c)]
          | d2 :: rest2 =>
            if d2.isDigit then
              match rest2 with
              | d3 :: rest3 =>
                if isOctDig c && isOctDig d2 && isOctDig d3 then
                  (tmplGo n rest3).map (fun ts =>
                    .lit (Char.ofNat
                      ((64 * digVal c + 8 * digVal d2 + digVal d3) % 256))
                      :: ts)
                else
                  (tmplGo n rest2).map (fun ts =>
                    .ref (10 * digVal c + digVal d2) :: ts)
              | [] => .ok [.ref (10 * digVal c + digVal d2)]
            else
              (tmplGo n rest1).map (fun ts => .ref (digVal c) :: ts)
        else
          match escCode c with
          | some ec => (tmplGo n rest1).map (fun ts => .lit ec :: ts)
          | none =>
            (tmplGo n rest1).map (fun ts => .lit '\\' :: .lit c :: ts)
    | c :: rest => (tmplGo n rest).map (fun ts => .lit c :: ts)

/-- The template parse performed once at the start of every `sub` call
(via `_subx`/`_compile_repl`), with or without a match in the subject. -/
def tmplComp (tpl : List Char) : Except PyErr (List TItem) :=
  tmplGo (tpl.length + 1) tpl

/-- `sre_parse.expand_template` for one match: group 0 is the whole match;
`match.group(n)` for a group the pattern does not have raises `IndexError`,
which `expand_template` turns into the `re.error` "invalid group
reference"; a group that exists but did not take part in the match is the
`re.error` "unmatched group". -/
def expandT (ts : List TItem) (ng : Nat) (whole : List Char) (cp : Caps) :
    Except RErr (List Char) :=
  match ts with
  | [] => .ok []
  | .lit c :: rest => (expandT rest ng whole cp).map (fun l => c :: l)
  | .ref n :: rest =>
    if n = 0 then (expandT rest ng whole cp).map (fun l => whole ++ l)
    else
      match capLookup n cp with
      | some v => (expandT rest ng whole cp).map (fun l => v ++ l)
      | none =>
        if n ≤ ng then .error .unmatchedGroup
        else .error .invalidGroupRef

/-- The scanning loop of `re.sub`: replace every non-overlapping match, left
to right.  `adj` is true when a previous match ended exactly at the current
position (Python 2 skips a zero-width match there).  After a zero-width
match the scanner advances one character. -/
def subGo (fl : Nat) (re : RE) (ts : List TItem) (ng : Nat) :
    Nat → List Char → Bool → Bool → Except RErr (List Char)
  | 0, s, _, _ => .ok s
  | n + 1, s, atst, adj =>
    match searchFrom fl re s atst with
    | none => .ok s
    | some (p, m, cp, rest) =>
      if m.isEmpty then
        if p.isEmpty && adj then
          match rest with
          | [] => .ok s
          | c :: rest2 =>
            (subGo fl re ts ng n rest2 false false).map (fun o => c :: o)
        else
          match expandT ts ng m cp with
          | .error e => .error e
          | .ok rep =>
            match rest with
            | [] => .ok (p ++ rep)
            | c :: rest2 =>
              (subGo fl re ts ng n rest2 false false).map
                (fun o => p ++ rep ++ c :: o)
      else
        match expandT ts ng m cp with
        | .error e => .error e
        | .ok rep =>
          (subGo fl re ts ng n rest false true).map (fun o => p ++ rep ++ o)

/-- A compiled rule: pattern AST, its number of capturing groups, and the
raw replacement template. -/
structure CRule where
  re : RE
  ngroups : Nat
  repl : List Char
deriving Repr, DecidableEq

/-- `regex.sub(subtext, t)`: the template is parsed once up front (so a
malformed template raises on every call, match or no match, while a
numeric group reference is not validated here), then the subject is
scanned; per-match expansion errors are `re.error`. -/
def applyRule (r : CRule) (t : List Char) : Except PyErr (List Char) :=
  match tmplComp r.repl with
  | .error e => .error e
  | .ok ts =>
    match subGo (fuelFor r.re t) r.re ts r.ngroups
        (t.length + 1) t true false with
    | .ok u => .ok u
    | .error e => .error (.reErr e)

/-- The scanning loop of `re.split` for a pattern with a capturing group:
pieces alternate between non-matching text and the group-1 capture of each
match (the three patterns split with in the source each have exactly one
group, which always participates). -/
def splitGo (fl : Nat) (re : RE) : Nat → List Char → Bool → List (List Char)
  | 0, s, _ => [s]
  | n + 1, s, atst =>
    match searchNE fl re s atst with
    | none => [s]
    | some (p, _, cp, rest) =>
      p :: capLookupD 1 cp [] :: splitGo fl re n rest false

def splitCap (re : RE) (t : List Char) : List (List Char) :=
  splitGo (fuelFor re t) re (t.length + 1) t true

def joinL : List (List Char) → List Char
  | [] => []
  | x :: xs => x ++ joinL xs

/-- Pattern-compilation errors (`re.error` at compile time). -/
inductive PErr where
  | unbalanced
  | badEscape
  | unsupported
  | nothingToRepeat
  | unterminatedSet
  | fuel
deriving Repr, DecidableEq

/-- Escapes accepted as literals in a pattern (Python 2 treats an unknown
escape of a non-alphanumeric character as that literal character; escapes of
digits are back-references and escapes of category letters are classes,
neither of which the plugin's patterns use, so they are compile errors
here). -/
def okEsc (c : Char) : Bool :=
  !(c.isDigit || c.isAlpha)

/-- Parse the body of a `[...]` character class (after a leading `^` has
been stripped), up to the closing bracket. -/
def pClsItems : List Char → Except PErr (List ClsIt × List Char)
  | [] => .error .unterminatedSet
  | ']' :: rest => .ok ([], rest)
  | '\\' :: rest =>
    match rest with
    | [] => .error .unterminatedSet
    | c :: rest2 =>
      if okEsc c then
        (pClsItems rest2).map (fun r => (.one c :: r.1, r.2))
      else .error .badEscape
  | c :: '-' :: d :: rest =>
    if d = ']' then
      .ok ([.one c, .one '-'], rest)
    else
      (pClsItems rest).map (fun r => (.rng c d :: r.1, r.2))
  | c :: rest => (pClsItems rest).map (fun r => (.one c :: r.1, r.2))

/-- The four precedence levels of the pattern grammar, merged into one
fuel-structural function (`.lvlA` alternation, `.lvlS` concatenation,
`.lvlR` repetition, `.lvlT` atom). -/
inductive PLvl where
  | lvlA
  | lvlS
  | lvlR
  | lvlT
deriving Repr, DecidableEq

def pRun : Nat → PLvl → List Char → Nat → Except PErr (RE × List Char × Nat)
  | 0, _, _, _ => .error .fuel
  | n + 1, .lvlA, s, g =>
    match pRun n .lvlS s g with
    | .error e => .error e
    | .ok (a, s1, g1) =>
      match s1 with
      | '|' :: s2 =>
        match pRun n .lvlA s2 g1 with
        | .error e => .error e
        | .ok (b, s3, g3) => .ok (.alt a b, s3, g3)
      | _ => .ok (a, s1, g1)
  | n + 1, .lvlS, s, g =>
    match s with
    | [] => .ok (.eps, [], g)
    | ')' :: _ => .ok (.eps, s, g)
    | '|' :: _ => .ok (.eps, s, g)
    | _ =>
      match pRun n .lvlR s g with
      | .error e => .error e
      | .ok (a, s1, g1) =>
        match pRun n .lvlS s1 g1 with
        | .error e => .error e
        | .ok (b, s2, g2) => .ok (.seq a b, s2, g2)
  | n + 1, .lvlR, s, g =>
    match pRun n .lvlT s g with
    | .error e => .error e
    | .ok (a, s1, g1) =>
      match s1 with
      | '*' :: '?' :: s2 =>
        match s2 with
        | '*' :: _ => .error .unbalanced
        | '+' :: _ => .error .unbalanced
        | _ => .ok (.star false a, s2, g1)
      | '*' :: s2 =>
        match s2 with
        | '*' :: _ => .error .unbalanced
        | '+' :: _ => .error .unbalanced
        | _ => .ok (.star true a, s2, g1)
      | '+' :: _ => .error .unsupported
      | '?' :: _ => .error .unsupported
      | _ => .ok (a, s1, g1)
  | n + 1, .lvlT, s, g =>
    match s with
    | [] => .error .unbalanced
    | '(' :: '?' :: ':' :: rest =>
      match pRun n .lvlA rest g with
      | .error e => .error e
      | .ok (a, s1, g1) =>
        match s1 with
        | ')' :: s2 => .ok (a, s2, g1)
        | _ => .error .unbalanced
    | '(' :: '?' :: _ => .error .unsupported
    | '(' :: rest =>
      match pRun n .lvlA rest (g + 1) with
      | .error e => .error e
      | .ok (a, s1, g1) =>
        match s1 with
        | ')' :: s2 => .ok (.grp (g + 1) a, s2, g1)
        | _ => .error .unbalanced
    | '[' :: '^' :: rest =>
      (pClsItems rest).map (fun r => (.cls true r.1, r.2, g))
    | '[' :: rest =>
      (pClsItems rest).map (fun r => (.cls false r.1, r.2, g))
    | '.' :: rest => .ok (.dot, rest, g)
    | '^' :: rest => .ok (.bos, rest, g)
    | '$' :: _ => .error .unsupported
    | '\\' :: rest =>
      match rest with
      | [] => .error .badEscape
      | c :: rest2 =>
        if okEsc c then .ok (.ch c, rest2, g) else .error .badEscape
    | '*' :: _ => .error .nothingToRepeat
    | '+' :: _ => .error .nothingToRepeat
    | '?' :: _ => .error .nothingToRepeat
    | c :: rest => .ok (.ch c, rest, g)


/-- `re.compile(pattern, re.DOTALL)`: parse a pattern string into an AST and
its number of capturing groups. -/
def parseRE (s : List Char) : Except PErr (RE × Nat) :=
  match pRun (4 * s.length + 8) .lvlA s 0 with
  | .error e => .error e
  | .ok (a, rest, g) =>
    match rest with
    | [] => .ok (a, g)
    | _ => .error .unbalanced

/-- The shipped default rule table (`default_formats` in the source; order
is significant).  Literal braces are written with `\x7b`/`\x7d` escapes. -/
def default_formats : List (String × String) := [
  ("([^\\\\]|^)(\\[.*?[^\\\\]\\])", "\\1<font color=\"gray\"><i>\\2</i></font>"),
  ("\\\\\\[", "["),
  ("\\\\\\]", "]"),
  ("([^\\\\]|^)\\\x7b(.*?[^\\\\])\\\x7d", "\\1<i>(\\2)</i>"),
  ("\\\\\\\x7b", "\x7b"),
  ("\\\\\\\x7d", "\x7d"),
  ("([^\\\\]|^)_(.*?[^\\\\])_", "\\1<i>\\2</i>"),
  ("\\\\_", "_"),
  ("([^\\\\]|^)\\*(.*?[^\\\\])\\*", "\\1<b>\\2</b>"),
  ("\\\\\\*", "*"),
  ("([^\\\\]|^)``(.*?[^\\\\])``", "\\1<font color=\"gray\">\\2</font>"),
  ("([^\\\\]|^)`(.*?[^\\\\])`", "\\1<font color=\"red\">\\2</font>"),
  ("\\\\`", "`"),
  ("([^\\\\]|^)##(.*?[^\\\\])##", "\\1<font color=\"green\">\\2</font>"),
  ("([^\\\\]|^)#(.*?[^\\\\])#", "\\1<font color=\"blue\">\\2</font>"),
  ("\\\\#", "#")]

/-- `compile_formats`: compile each pattern with DOTALL; on a compile error
the entry is silently dropped and compilation continues. -/
def compile_formats (formats : List (String × String)) : List CRule :=
  match formats with
  | [] => []
  | (ret, sub) :: rest =>
    match parseRE ret.data with
    | .ok rn => ⟨rn.1, rn.2, sub.data⟩ :: compile_formats rest
    | .error _ => compile_formats rest

/-- The compiled default rule set. -/
def defFmts : List CRule := compile_formats default_formats

/-- `tag_re = re.compile('(<[^>]*>)', re.DOTALL)`. -/
def tag_re : RE :=
  match parseRE "(<[^>]*>)".data with
  | .ok p => p.1
  | .error _ => .eps

/-- The inner `for` loop applied to one non-tag segment in `format`'s
`skip_tags` branch: each rule is applied in order, and a rule whose
substitution raises is skipped for this segment only. -/
def applySeg (fs : List CRule) (t : List Char) : List Char :=
  match fs with
  | [] => t
  | r :: rs =>
    applySeg rs (match applyRule r t with | .ok u => u | .error _ => t)

/-- The outer `for t in texts` loop of `format`'s `skip_tags` branch: a
segment starting with `<` passes through untouched. -/
def fmtSegs (fs : List CRule) : List (List Char) → List (List Char)
  | [] => []
  | t :: ts =>
    (if t.head? = some '<' then t else applySeg fs t) :: fmtSegs fs ts

/-- The rule cascade of `format`'s no-skip branch, with the exception
propagating: on a rule error the current (partially transformed) value of
the `text` variable travels with the exception to the handler. -/
def cascadeE : List CRule → List Char → Except (PyErr × List Char) (List Char)
  | [], t => .ok t
  | r :: rs, t =>
    match applyRule r t with
    | .ok u => cascadeE rs u
    | .error e => .error (e, t)

/-- `format(text, formats, skip_tags)` on `List Char`.  The outer
`try/except re.error` returns the current `text` when the cascade raises. -/
def formatL (text : List Char) (formats : List CRule) (skip_tags : Bool) :
    List Char :=
  if skip_tags then joinL (fmtSegs formats (splitCap tag_re text))
  else
    match cascadeE formats text with
    | .ok u => u
    | .error ec => ec.2

/-- `format` at `String` type. -/
def format (text : String) (formats : List CRule) (skip_tags : Bool) :
    String :=
  ⟨formatL text.data formats skip_tags⟩

/-- The inner rule loop of the `skip_tags` branch with exceptions made
explicit: `except re.error` skips the rule for this segment, but an
uncaught `IndexError` from the template parse aborts the loop. -/
def applySegE (fs : List CRule) (t : List Char) : Except PyErr (List Char) :=
  match fs with
  | [] => .ok t
  | r :: rs =>
    match applyRule r t with
    | .ok u => applySegE rs u
    | .error (.reErr _) => applySegE rs t
    | .error .idxErr => .error .idxErr

/-- The outer `for t in texts` loop of the `skip_tags` branch with
exceptions made explicit: an escaping exception aborts the loop. -/
def fmtSegsE (fs : List CRule) :
    List (List Char) → Except PyErr (List (List Char))
  | [] => .ok []
  | t :: ts =>
    match (if t.head? = some '<' then Except.ok t else applySegE fs t) with
    | .ok u => (fmtSegsE fs ts).map (fun us => u :: us)
    | .error e => .error e

/-- The body of `format` as seen by the caller, with exceptions modelled in
the result type.  The outer `try/except re.error` catches an `re.error`
from either branch and returns the current value of `text` (in the
`skip_tags` branch that value is the unmodified input, and in fact every
`re.error` there is already caught inside the loop); an `IndexError`
raised while parsing a rule's replacement template is caught by neither
handler and escapes to the caller.  `formatL` above is the value-level
behaviour: the two agree whenever no `IndexError` escapes (claim C5). -/
def formatX (text : List Char) (formats : List CRule) (skip_tags : Bool) :
    Except PyErr (List Char) :=
  if skip_tags then
    match fmtSegsE formats (splitCap tag_re text) with
    | .ok segs => .ok (joinL segs)
    | .error (.reErr _) => .ok text
    | .error .idxErr => .error .idxErr
  else
    match cascadeE formats text with
    | .ok u => .ok u
    | .error (.reErr _, cur) => .ok cur
    | .error (.idxErr, _) => .error .idxErr

/-- `strip_re = re.compile(r'(< *(?:img|audio)[^>]*>)')`. -/
def strip_re : RE :=
  match parseRE "(< *(?:img|audio)[^>]*>)".data with
  | .ok p => p.1
  | .error _ => .eps

/-- `thread_re = re.compile(u'￼([0-9]*)￼')`. -/
def thread_re : RE :=
  match parseRE "￼([0-9]*)￼".data with
  | .ok p => p.1
  | .error _ => .eps

def digCh : Nat → Char
  | 0 => '0'
  | 1 => '1'
  | 2 => '2'
  | 3 => '3'
  | 4 => '4'
  | 5 => '5'
  | 6 => '6'
  | 7 => '7'
  | 8 => '8'
  | _ => '9'

/-- Decimal rendering of a natural number (`'%d' % k`). -/
def natDecimal (n : Nat) : List Char :=
  if n = 0 then ['0'] else (Nat.digits 10 n).reverse.map digCh

/-- The placeholder `u'￼%d￼' % k`. -/
def phd (k : Nat) : List Char := '￼' :: (natDecimal k ++ ['￼'])

/-- The loop of `strip_tags`: the pieces at odd positions (the matched tag
spans) are collected and replaced in place by sequentially numbered
placeholders, `(i - 1) / 2` giving the numbers 0, 1, 2, ... -/
def placehold (k : Nat) : List (List Char) → List (List Char) × List (List Char)
  | [] => ([], [])
  | [t] => ([t], [])
  | t :: gtag :: rest =>
    (t :: phd k :: (placehold (k + 1) rest).1,
      gtag :: (placehold (k + 1) rest).2)

/-- `strip_tags(text)`. -/
def strip_tags (text : List Char) : List Char × List (List Char) :=
  let pr := placehold 0 (splitCap strip_re text)
  (joinL pr.1, pr.2)

/-- The loop of `thread_tags`: each piece at an odd position is the digit
capture of a placeholder and is replaced by `tags[int(piece)]`.  (Python
raises `IndexError` on an out-of-range index; on `strip_tags` output with
its own tag list every index is in range, which is the use in the source, so
the default value of `getD` is never taken there.) -/
def rethread (tags : List (List Char)) : List (List Char) → List (List Char)
  | [] => []
  | [t] => [t]
  | t :: d :: rest => t :: tags.getD (decToNat d) [] :: rethread tags rest

/-- `thread_tags(text, tags)`. -/
def thread_tags (text : List Char) (tags : List (List Char)) : List Char :=
  joinL (rethread tags (splitCap thread_re text))


/-! ### Derived definitions used by the verification -/

/-- `reqSet re cs` is true when every successful match of `re` must consume
at least one character belonging to `cs`. -/
def reqSet (cs : List Char) : RE → Bool
  | .eps => false
  | .ch c => decide (c ∈ cs)
  | .cls _ _ => false
  | .dot => false
  | .bos => false
  | .seq a b => reqSet cs a || reqSet cs b
  | .alt a b => reqSet cs a && reqSet cs b
  | .star _ _ => false
  | .grp _ a => reqSet cs a
def tagInner : RE :=
  .seq (.ch '<')
    (.seq (.star true (.cls true [.one '>'])) (.seq (.ch '>') .eps))
def stripInner : RE :=
  .seq (.ch '<')
    (.seq (.star true (.ch ' '))
      (.seq
        (.alt
          (.seq (.ch 'i') (.seq (.ch 'm') (.seq (.ch 'g') .eps)))
          (.seq (.ch 'a')
            (.seq (.ch 'u')
              (.seq (.ch 'd') (.seq (.ch 'i') (.seq (.ch 'o') .eps))))))
        (.seq (.star true (.cls true [.one '>'])) (.seq (.ch '>') .eps))))
def digCls : RE := .cls false [.rng '0' '9']
def isOkE {ε α : Type} : Except ε α → Bool
  | .ok _ => true
  | .error _ => false

/-- True when the result is an `re.error` (the exception class the
plugin's handlers catch). -/
def isREerr {α : Type} : Except PyErr α → Bool
  | .error (.reErr _) => true
  | _ => false

/-- True when the result is the uncaught `IndexError` raised while parsing
a replacement template holding a `\g<name>` reference to an unknown group
name. -/
def isIdxErr {α : Type} : Except PyErr α → Bool
  | .error .idxErr => true
  | _ => false
/-- The delimiter characters of the shorthand notations. -/
def delims : List Char := ['[', ']', '\x7b', '\x7d', '_', '*', '\x60', '#']
def isDigCh (c : Char) : Bool := clsMem false [ClsIt.rng '0' '9'] c
/-- Length of the maximal digit prefix. -/
def digPre : List Char → Nat
  | [] => 0
  | c :: rest => if isDigCh c then digPre rest + 1 else 0
def evensNoF : List (List Char) → Prop
  | [] => True
  | [t] => '￼' ∉ t
  | t :: _ :: rest => '￼' ∉ t ∧ evensNoF rest

def numPh : List (List Char) → Nat
  | [] => 0
  | [_] => 0
  | _ :: _ :: rest => numPh rest + 1

/-! ### Engine lemmas -/

theorem mtch_suffix (n : Nat) :
    ∀ (re : RE) (s : List Char) (atst : Bool) (cp : Caps)
      (rc : List Char × Caps), rc ∈ mtchF n re s atst cp → rc.1 <:+ s := by
  induction n with
  | zero => intro re s atst cp rc h; simp [mtchF] at h
  | succ n ih =>
    intro re s atst cp rc h
    cases re with
    | eps =>
      simp [mtchF] at h
      simp [h]
    | ch c =>
      cases s with
      | nil => simp [mtchF] at h
      | cons d rest =>
        simp [mtchF] at h
        rcases h with ⟨-, h2⟩
        simp only [h2]
        exact (List.suffix_cons d rest)
    | cls neg items =>
      cases s with
      | nil => simp [mtchF] at h
      | cons d rest =>
        simp only [mtchF] at h
        split at h
        · simp at h
          simp only [h]
          exact (List.suffix_cons d rest)
        · simp at h
    | dot =>
      cases s with
      | nil => simp [mtchF] at h
      | cons d rest =>
        simp [mtchF] at h
        simp only [h]
        exact (List.suffix_cons d rest)
    | bos =>
      simp only [mtchF] at h
      split at h
      · simp at h; simp [h]
      · simp at h
    | seq a b =>
      simp only [mtchF, List.mem_flatMap] at h
      rcases h with ⟨rc1, h1, h2⟩
      exact (ih b rc1.1 _ rc1.2 rc h2).trans (ih a s atst cp rc1 h1)
    | alt a b =>
      simp only [mtchF, List.mem_append] at h
      rcases h with h | h
      · exact ih a s atst cp rc h
      · exact ih b s atst cp rc h
    | star g a =>
      simp only [mtchF] at h
      have hiter : ∀ rc',
          rc' ∈ ((mtchF n a s atst cp).filter
              (fun rc0 => decide (rc0.1.length < s.length))).flatMap
            (fun rc0 => mtchF n (.star g a) rc0.1 false rc0.2) →
          rc'.1 <:+ s := by
        intro rc' h'
        simp only [List.mem_flatMap, List.mem_filter] at h'
        rcases h' with ⟨rc0, ⟨h0, -⟩, h1⟩
        exact (ih (.star g a) rc0.1 _ rc0.2 rc' h1).trans (ih a s atst cp rc0 h0)
      split at h
      · rw [List.mem_append] at h
        rcases h with h | h
        · exact hiter rc h
        · simp at h
          simp only [h]
          exact List.suffix_refl s
      · rw [List.mem_cons] at h
        rcases h with h | h
        · simp only [h]
          exact List.suffix_refl s
        · exact hiter rc h
    | grp i a =>
      simp only [mtchF, List.mem_map] at h
      rcases h with ⟨rc1, h1, h2⟩
      have := ih a s atst cp rc1 h1
      rw [← h2] at *
      simpa using this

theorem mtch_req (n : Nat) :
    ∀ (re : RE) (cs : List Char) (s : List Char) (atst : Bool) (cp : Caps),
      reqSet cs re = true → (∀ c ∈ cs, c ∉ s) →
      mtchF n re s atst cp = [] := by
  induction n with
  | zero => intro re cs s atst cp _ _; simp [mtchF]
  | succ n ih =>
    intro re cs s atst cp hreq hs
    cases re with
    | eps => simp [reqSet] at hreq
    | ch c =>
      simp only [reqSet, decide_eq_true_eq] at hreq
      cases s with
      | nil => simp [mtchF]
      | cons d rest =>
        simp only [mtchF]
        have : d ≠ c := by
          intro hdc
          exact hs c hreq (by simp [hdc])
        simp [this]
    | cls neg items => simp [reqSet] at hreq
    | dot => simp [reqSet] at hreq
    | bos => simp [reqSet] at hreq
    | seq a b =>
      simp only [reqSet, Bool.or_eq_true] at hreq
      rcases hreq with hreq | hreq
      · simp [mtchF, ih a cs s atst cp hreq hs]
      · simp only [mtchF]
        rw [List.flatMap_eq_nil_iff]
        intro rc hrc
        have hsub : rc.1 <:+ s := mtch_suffix n a s atst cp rc hrc
        refine ih b cs rc.1 _ rc.2 hreq ?_
        intro c hc hmem
        exact hs c hc (hsub.subset hmem)
    | alt a b =>
      simp only [reqSet, Bool.and_eq_true] at hreq
      simp [mtchF, ih a cs s atst cp hreq.1 hs, ih b cs s atst cp hreq.2 hs]
    | star g a => simp [reqSet] at hreq
    | grp i a =>
      simp only [reqSet] at hreq
      simp [mtchF, ih a cs s atst cp hreq hs]

theorem head_mem_of_eq {l : List (List Char × Caps)} {rc : List Char × Caps}
    (h : l.head? = some rc) : rc ∈ l := by
  cases l with
  | nil => simp at h
  | cons x xs =>
    simp at h
    simp [h]

theorem searchFrom_none (fl : Nat) (re : RE) (cs : List Char) :
    ∀ (s : List Char) (atst : Bool),
      reqSet cs re = true → (∀ c ∈ cs, c ∉ s) →
      searchFrom fl re s atst = none := by
  intro s
  induction s with
  | nil =>
    intro atst hreq hs
    simp [searchFrom, mtch_req fl re cs [] atst [] hreq hs]
  | cons c s' ih =>
    intro atst hreq hs
    have hs' : ∀ d ∈ cs, d ∉ s' := by
      intro d hd hmem
      exact hs d hd (by simp [hmem])
    simp [searchFrom, mtch_req fl re cs (c :: s') atst [] hreq hs, ih false hreq hs']

theorem searchNE_none (fl : Nat) (re : RE) (cs : List Char) :
    ∀ (s : List Char) (atst : Bool),
      reqSet cs re = true → (∀ c ∈ cs, c ∉ s) →
      searchNE fl re s atst = none := by
  intro s
  induction s with
  | nil =>
    intro atst hreq hs
    simp [searchNE, mtch_req fl re cs [] atst [] hreq hs]
  | cons c s' ih =>
    intro atst hreq hs
    have hs' : ∀ d ∈ cs, d ∉ s' := by
      intro d hd hmem
      exact hs d hd (by simp [hmem])
    simp [searchNE, mtch_req fl re cs (c :: s') atst [] hreq hs, ih false hreq hs']

theorem searchNE_decomp (fl : Nat) (re : RE) :
    ∀ (s : List Char) (atst : Bool) (p m : List Char) (cp : Caps)
      (rest : List Char),
      searchNE fl re s atst = some (p, m, cp, rest) →
      s = p ++ m ++ rest ∧ m ≠ [] := by
  intro s
  induction s with
  | nil =>
    intro atst p m cp rest h
    simp only [searchNE] at h
    split at h
    · split at h
      · next hlt => simp at hlt
      · simp at h
    · simp at h
  | cons c s' ih =>
    intro atst p m cp rest h
    simp only [searchNE] at h
    split at h
    case h_1 rc hh =>
      split at h
      case isTrue hlt =>
        have hmem := head_mem_of_eq hh
        have hsfx : rc.1 <:+ (c :: s') :=
          mtch_suffix fl re (c :: s') atst [] rc hmem
        obtain ⟨q, hq⟩ := hsfx
        simp only [Option.some.injEq, Prod.mk.injEq] at h
        obtain ⟨hp, hm, hcp, hrest⟩ := h
        have hlen : (c :: s').length - rc.1.length = q.length := by
          rw [← hq]
          simp
        have htake : (c :: s').take ((c :: s').length - rc.1.length) = q := by
          rw [hlen, ← hq]
          exact List.take_left q rc.1
        constructor
        · rw [← hp, ← hm, ← hrest, htake]
          simp only [List.nil_append]
          exact hq.symm
        · rw [← hm, htake]
          intro hqnil
          rw [hqnil] at hq
          rw [← hq] at hlt
          simp at hlt
      case isFalse =>
        rw [Option.map_eq_some'] at h
        obtain ⟨q, hq', hqeq⟩ := h
        obtain ⟨h1, h2⟩ := ih false q.1 q.2.1 q.2.2.1 q.2.2.2 (by rw [hq'])
        injection hqeq with hq1 hq2
        injection hq2 with hm hq3
        injection hq3 with hcp hrest
        constructor
        · rw [← hq1, ← hm, ← hrest]
          simp only [List.cons_append, List.cons.injEq, true_and]
          exact h1
        · rw [← hm]
          exact h2
    case h_2 hh =>
      rw [Option.map_eq_some'] at h
      obtain ⟨q, hq', hqeq⟩ := h
      obtain ⟨h1, h2⟩ := ih false q.1 q.2.1 q.2.2.1 q.2.2.2 (by rw [hq'])
      injection hqeq with hq1 hq2
      injection hq2 with hm hq3
      injection hq3 with hcp hrest
      constructor
      · rw [← hq1, ← hm, ← hrest]
        simp only [List.cons_append, List.cons.injEq, true_and]
        exact h1
      · rw [← hm]
        exact h2

theorem mtch_grp1_caps (n : Nat) (a : RE) (s : List Char) (atst : Bool)
    (rc : List Char × Caps)
    (h : rc ∈ mtchF n (RE.seq (RE.grp 1 a) RE.eps) s atst []) :
    ∃ c2, rc.2 = (1, s.take (s.length - rc.1.length)) :: c2 := by
  cases n with
  | zero => simp [mtchF] at h
  | succ n =>
    simp only [mtchF, List.mem_flatMap] at h
    obtain ⟨rc1, h1, h2⟩ := h
    cases n with
    | zero => simp [mtchF] at h1
    | succ m =>
      simp only [mtchF, List.mem_map] at h1
      obtain ⟨rr, hrr, hrc1⟩ := h1
      simp only [mtchF, List.mem_singleton] at h2
      subst h2
      rw [← hrc1]
      exact ⟨rr.2, rfl⟩

theorem searchNE_grp1_cap (fl : Nat) (a : RE) :
    ∀ (s : List Char) (atst : Bool) (p m : List Char) (cp : Caps)
      (rest : List Char),
      searchNE fl (RE.seq (RE.grp 1 a) RE.eps) s atst = some (p, m, cp, rest) →
      capLookupD 1 cp [] = m := by
  intro s
  induction s with
  | nil =>
    intro atst p m cp rest h
    simp only [searchNE] at h
    split at h
    · split at h
      · next hlt => simp at hlt
      · simp at h
    · simp at h
  | cons c s' ih =>
    intro atst p m cp rest h
    simp only [searchNE] at h
    split at h
    case h_1 rc hh =>
      split at h
      case isTrue hlt =>
        have hmem := head_mem_of_eq hh
        obtain ⟨c2, hc2⟩ := mtch_grp1_caps fl a (c :: s') atst rc hmem
        simp only [Option.some.injEq, Prod.mk.injEq] at h
        obtain ⟨hp, hm, hcp, hrest⟩ := h
        rw [← hcp, ← hm, hc2]
        simp [capLookupD, capLookup]
      case isFalse =>
        rw [Option.map_eq_some'] at h
        obtain ⟨q, hq', hqeq⟩ := h
        injection hqeq with hq1 hq2
        injection hq2 with hm hq3
        injection hq3 with hcp hrest
        rw [← hcp, ← hm]
        exact ih false q.1 q.2.1 q.2.2.1 q.2.2.2 (by rw [hq'])
    case h_2 hh =>
      rw [Option.map_eq_some'] at h
      obtain ⟨q, hq', hqeq⟩ := h
      injection hqeq with hq1 hq2
      injection hq2 with hm hq3
      injection hq3 with hcp hrest
      rw [← hcp, ← hm]
      exact ih false q.1 q.2.1 q.2.2.1 q.2.2.2 (by rw [hq'])

theorem splitGo_join (fl : Nat) (a : RE) :
    ∀ (n : Nat) (s : List Char) (atst : Bool), s.length < n →
      joinL (splitGo fl (RE.seq (RE.grp 1 a) RE.eps) n s atst) = s := by
  intro n
  induction n with
  | zero =>
    intro s atst h
    exact absurd h (Nat.not_lt_zero _)
  | succ n ih =>
    intro s atst h
    simp only [splitGo]
    split
    · simp [joinL]
    · next p m cp rest hse =>
      obtain ⟨hdecomp, hne⟩ := searchNE_decomp fl _ s atst p m cp rest hse
      have hcap := searchNE_grp1_cap fl a s atst p m cp rest hse
      have hlrest : rest.length < n := by
        have hls : s.length = p.length + (m.length + rest.length) := by
          rw [hdecomp]
          simp
        have hm1 : 1 ≤ m.length := by
          cases m with
          | nil => exact absurd rfl hne
          | cons x xs => simp
        omega
      simp only [joinL]
      rw [hcap, ih rest false hlrest, hdecomp]
      simp

theorem splitCap_join (a : RE) (re : RE)
    (hre : re = RE.seq (RE.grp 1 a) RE.eps) (t : List Char) :
    joinL (splitCap re t) = t := by
  subst hre
  exact splitGo_join _ a _ t true (Nat.lt_succ_self _)

/-! ### Shapes of the three splitting regexes -/

theorem tag_re_eq : tag_re = RE.seq (RE.grp 1 tagInner) RE.eps := by rfl

theorem strip_re_eq : strip_re = RE.seq (RE.grp 1 stripInner) RE.eps := by
  rfl

theorem thread_re_eq :
    thread_re =
      RE.seq (.ch '￼')
        (.seq (.grp 1 (.seq (.star true digCls) .eps))
          (.seq (.ch '￼') .eps)) := by
  rfl

/-! ### Helper facts about the plugin's loops -/

theorem applySeg_append (xs ys : List CRule) :
    ∀ t, applySeg (xs ++ ys) t = applySeg ys (applySeg xs t) := by
  induction xs with
  | nil => intro t; rfl
  | cons x xs ih =>
    intro t
    simp only [List.cons_append, applySeg]
    exact ih _

theorem fmtSegs_map (fs : List CRule) :
    ∀ l : List (List Char),
      fmtSegs fs l =
        l.map (fun s => if s.head? = some '<' then s else applySeg fs s) := by
  intro l
  induction l with
  | nil => rfl
  | cons x xs ih => simp only [fmtSegs, List.map_cons, ih]

theorem mem_joinL :
    ∀ (l : List (List Char)) (a : List Char), a ∈ l → ∀ c ∈ a, c ∈ joinL l := by
  intro l
  induction l with
  | nil => intro a ha; simp at ha
  | cons x xs ih =>
    intro a ha c hc
    simp only [List.mem_cons] at ha
    simp only [joinL, List.mem_append]
    rcases ha with ha | ha
    · left
      rw [← ha]
      exact hc
    · right
      exact ih a ha c hc

theorem cascadeE_id :
    ∀ (fs : List CRule) (t : List Char),
      (∀ r ∈ fs, applyRule r t = .ok t) → cascadeE fs t = .ok t := by
  intro fs
  induction fs with
  | nil => intro t _; rfl
  | cons r rs ih =>
    intro t h
    have hr := h r (by simp)
    simp only [cascadeE, hr]
    exact ih t (fun r' hr' => h r' (by simp [hr']))

theorem applySeg_id :
    ∀ (fs : List CRule) (t : List Char),
      (∀ r ∈ fs, applyRule r t = .ok t) → applySeg fs t = t := by
  intro fs
  induction fs with
  | nil => intro t _; rfl
  | cons r rs ih =>
    intro t h
    have hr := h r (by simp)
    simp only [applySeg, hr]
    exact ih t (fun r' hr' => h r' (by simp [hr']))

theorem applyRule_id (r : CRule) (cs : List Char) (t : List Char)
    (hreq : reqSet cs r.re = true)
    (htm : isOkE (tmplComp r.repl) = true)
    (ht : ∀ c ∈ cs, c ∉ t) :
    applyRule r t = .ok t := by
  cases htc : tmplComp r.repl with
  | error e => rw [htc] at htm; simp [isOkE] at htm
  | ok ts =>
    have hnone := searchFrom_none (fuelFor r.re t) r.re cs t true hreq ht
    have hsub : subGo (fuelFor r.re t) r.re ts r.ngroups
        (t.length + 1) t true false = .ok t := by
      simp only [subGo, hnone]
    simp only [applyRule, htc, hsub]

theorem defFmts_all_req :
    defFmts.all
      (fun r => reqSet delims r.re && isOkE (tmplComp r.repl)) =
      true := by decide

theorem defFmts_rule_id (r : CRule) (hr : r ∈ defFmts) (u : List Char)
    (hu : ∀ c ∈ u, c ∉ delims) : applyRule r u = .ok u := by
  have hall := defFmts_all_req
  rw [List.all_eq_true] at hall
  have h2 := hall r hr
  rw [Bool.and_eq_true] at h2
  exact applyRule_id r delims u h2.1 h2.2 (fun c hc hcu => hu c hcu hc)

theorem formatX_true (text : List Char) (fs : List CRule) :
    formatX text fs true =
      match fmtSegsE fs (splitCap tag_re text) with
      | .ok segs => .ok (joinL segs)
      | .error (.reErr _) => .ok text
      | .error .idxErr => .error .idxErr := rfl

theorem formatX_false (text : List Char) (fs : List CRule) :
    formatX text fs false =
      match cascadeE fs text with
      | .ok u => .ok u
      | .error (.reErr _, cur) => .ok cur
      | .error (.idxErr, _) => .error .idxErr := rfl

theorem formatL_true (text : List Char) (fs : List CRule) :
    formatL text fs true = joinL (fmtSegs fs (splitCap tag_re text)) := rfl

theorem formatL_false (text : List Char) (fs : List CRule) :
    formatL text fs false =
      match cascadeE fs text with
      | .ok u => u
      | .error ec => ec.2 := rfl

/-- The only way a single rule application can end in the uncaught
`IndexError` is a template whose parse raises it: the scanning phase
itself only raises `re.error`. -/
theorem applyRule_idx (r : CRule) (t : List Char)
    (h : applyRule r t = .error PyErr.idxErr) :
    isIdxErr (tmplComp r.repl) = true := by
  cases htc : tmplComp r.repl with
  | error e =>
    simp only [applyRule, htc] at h
    injection h with h2
    subst h2
    rfl
  | ok ts =>
    simp only [applyRule, htc] at h
    cases hs : subGo (fuelFor r.re t) r.re ts r.ngroups
        (t.length + 1) t true false with
    | ok u =>
      rw [hs] at h
      exact Except.noConfusion h
    | error e =>
      rw [hs] at h
      injection h with h2
      exact PyErr.noConfusion h2

/-- When no rule's template raises the `IndexError`, the inner loop with
explicit exceptions agrees with the catch-all value-level loop. -/
theorem applySegE_ok :
    ∀ (fs : List CRule) (t : List Char),
      (∀ r ∈ fs, isIdxErr (tmplComp r.repl) = false) →
      applySegE fs t = .ok (applySeg fs t) := by
  intro fs
  induction fs with
  | nil => intro t _; rfl
  | cons r rs ih =>
    intro t h
    cases hr : applyRule r t with
    | ok u =>
      simp only [applySegE, applySeg, hr]
      exact ih u (fun r' hr' => h r' (List.mem_cons_of_mem r hr'))
    | error e =>
      cases e with
      | reErr e0 =>
        simp only [applySegE, applySeg, hr]
        exact ih t (fun r' hr' => h r' (List.mem_cons_of_mem r hr'))
      | idxErr =>
        have h1 := applyRule_idx r t hr
        have h0 := h r (List.mem_cons_self r rs)
        rw [h1] at h0
        exact Bool.noConfusion h0

/-- When no rule's template raises the `IndexError`, the segment loop with
explicit exceptions agrees with the catch-all value-level loop. -/
theorem fmtSegsE_ok (fs : List CRule)
    (h : ∀ r ∈ fs, isIdxErr (tmplComp r.repl) = false) :
    ∀ l : List (List Char), fmtSegsE fs l = .ok (fmtSegs fs l) := by
  intro l
  induction l with
  | nil => rfl
  | cons t ts ih =>
    by_cases ht : t.head? = some '<'
    · simp only [fmtSegsE, fmtSegs, if_pos ht, ih]
      rfl
    · simp only [fmtSegsE, fmtSegs, if_neg ht, applySegE_ok fs t h, ih]
      rfl

/-- When no rule's template raises the `IndexError`, the cascade either
completes or stops with an `re.error`. -/
theorem cascadeE_no_idx :
    ∀ (fs : List CRule) (t : List Char),
      (∀ r ∈ fs, isIdxErr (tmplComp r.repl) = false) →
      (∃ u, cascadeE fs t = .ok u) ∨
        ∃ e cur, cascadeE fs t = .error (PyErr.reErr e, cur) := by
  intro fs
  induction fs with
  | nil => intro t _; exact Or.inl ⟨t, rfl⟩
  | cons r rs ih =>
    intro t h
    cases hr : applyRule r t with
    | ok u =>
      simp only [cascadeE, hr]
      exact ih u (fun r' hr' => h r' (List.mem_cons_of_mem r hr'))
    | error e =>
      cases e with
      | reErr e0 =>
        simp only [cascadeE, hr]
        exact Or.inr ⟨e0, t, rfl⟩
      | idxErr =>
        have h1 := applyRule_idx r t hr
        have h0 := h r (List.mem_cons_self r rs)
        rw [h1] at h0
        exact Bool.noConfusion h0

/-! ### Claim theorems -/

/-- Claim C1, counterexample.  The rule list compiles `("x","y")`, an
`("a","\9")` rule whose replacement template references group 9 of a
groupless pattern (the template parses, but expanding it at the first
match raises the "invalid group reference" `re.error`), and
`("b","c")`.  With `skip_tags=False` the claim demands that the subsequent
`("b","c")` rule still runs, which would give `"ac"` (as running the list
without the broken rule shows); `format` actually returns `"ab"` untouched
by the subsequent rule, so the claim is false at this input. -/
theorem claim_C1_counterexample :
    format "ab" (compile_formats [("x", "y"), ("a", "\\9"), ("b", "c")])
        false = "ab" ∧
    format "ab" (compile_formats [("x", "y"), ("b", "c")]) false = "ac" ∧
    ("ab" : String) ≠ "ac" :=
  ⟨by decide, by decide, by decide⟩

/-- Claim C1, amended: for a rule `r` whose substitution raises an
`re.error` on every text (such as one whose replacement template is
malformed — e.g. it ends in a lone backslash, the "bogus escape" error —
which the template parse run at the start of every `sub` call raises,
match or no match), with `skip_tags=True` the rule is skipped per segment
and every prior and subsequent rule still runs, as if `r` were absent; but
with `skip_tags=False` the rules before `r` run, the exception aborts the
cascade, and the partially transformed text is returned without the
subsequent rules running. -/
theorem claim_C1 (fs1 fs2 : List CRule) (r : CRule) (t : List Char)
    (hbad : ∀ u : List Char, isREerr (applyRule r u) = true) :
    formatL t (fs1 ++ r :: fs2) true = formatL t (fs1 ++ fs2) true ∧
    formatL t (fs1 ++ r :: fs2) false = formatL t fs1 false := by
  have hstep : ∀ u : List Char,
      (match applyRule r u with | .ok v => v | .error _ => u) = u := by
    intro u
    have := hbad u
    cases h : applyRule r u with
    | ok v => rw [h] at this; simp [isREerr] at this
    | error e => rfl
  constructor
  · show joinL (fmtSegs (fs1 ++ r :: fs2) (splitCap tag_re t)) =
      joinL (fmtSegs (fs1 ++ fs2) (splitCap tag_re t))
    rw [fmtSegs_map, fmtSegs_map]
    congr 1
    apply List.map_congr_left
    intro s _
    by_cases hs : s.head? = some '<'
    · simp [hs]
    · simp only [hs, if_neg, applySeg_append]
      simp only [applySeg]
      rw [hstep (applySeg fs1 s)]
  · induction fs1 generalizing t with
    | nil =>
      show (match cascadeE (r :: fs2) t with
        | .ok u => u | .error ec => ec.2) =
        (match cascadeE ([] : List CRule) t with
        | .ok u => u | .error ec => ec.2)
      cases h : applyRule r t with
      | ok v =>
        have hb := hbad t
        rw [h] at hb
        simp [isREerr] at hb
      | error e =>
        simp only [cascadeE, h]
    | cons f fs1' ih =>
      show (match cascadeE (f :: (fs1' ++ r :: fs2)) t with
        | .ok u => u | .error ec => ec.2) =
        (match cascadeE (f :: fs1') t with
        | .ok u => u | .error ec => ec.2)
      simp only [cascadeE]
      cases h : applyRule f t with
      | ok v => exact ih v
      | error e => rfl

/-- Claim C1 witness: a concrete broken rule (pattern `a` with the
malformed template consisting of a lone backslash, the "bogus escape"
raised by the template parse at the start of every `sub` call, so the
rule raises `re.error` on every text) inserted between the compiled
`("x","y")` and `("b","c")` rules. -/
theorem claim_C1_witness :
    (∀ u : List Char,
      isREerr (applyRule ⟨RE.seq (RE.ch 'a') RE.eps, 0, "\\".data⟩ u) =
        true) ∧
    formatL "ab".data
        (compile_formats [("x", "y")] ++
          (⟨RE.seq (RE.ch 'a') RE.eps, 0, "\\".data⟩ : CRule) ::
            compile_formats [("b", "c")]) false =
      formatL "ab".data (compile_formats [("x", "y")]) false :=
  ⟨fun _ => rfl,
    (claim_C1 (compile_formats [("x", "y")]) (compile_formats [("b", "c")])
      ⟨RE.seq (RE.ch 'a') RE.eps, 0, "\\".data⟩ "ab".data
      (fun _ => rfl)).2⟩

/-- Claim C2, counterexample.  The input `"<a *b*"` holds no substring
matching the tag pattern, so the whole text is a single non-tag segment
(the split is `["<a *b*"]`); the rule cascade would transform it (it turns
`*b*` into a bold span), yet `format` with `skip_tags=True` returns it
unchanged because the segment happens to begin with `<` — contradicting
the claim that every non-tag segment has the full cascade applied. -/
theorem claim_C2_counterexample :
    splitCap tag_re "<a *b*".data = ["<a *b*".data] ∧
    applySeg defFmts "<a *b*".data ≠ "<a *b*".data ∧
    format "<a *b*" defFmts true = "<a *b*" :=
  ⟨by decide, by decide, by decide⟩

/-- Claim C2, amended: with `skip_tags=True`, `format` splits the input
with the tag pattern, the split pieces concatenate back to exactly the
input, and the output is the concatenation, in original order, where a
segment beginning with `<` (every tag match, and also any non-tag segment
that happens to begin with an unmatched `<`) passes through unchanged and
every other segment receives the full rule cascade in rule order. -/
theorem claim_C2 (t : List Char) (fs : List CRule) :
    formatL t fs true =
      joinL ((splitCap tag_re t).map
        (fun s => if s.head? = some '<' then s else applySeg fs s)) ∧
    joinL (splitCap tag_re t) = t := by
  constructor
  · show joinL (fmtSegs fs (splitCap tag_re t)) = _
    rw [fmtSegs_map]
  · exact splitCap_join tagInner tag_re tag_re_eq t

/-- Claim C4: `compile_formats` is total by construction, keeps exactly the
entries whose pattern compiles, in input order (it is the `filterMap` of
compilation), and on the spec's own example it returns exactly the one
compiled rule for `"ok"`. -/
theorem claim_C4 :
    (∀ l : List (String × String),
      compile_formats l = l.filterMap (fun p =>
        match parseRE p.1.data with
        | .ok rn => some ⟨rn.1, rn.2, p.2.data⟩
        | .error _ => none)) ∧
    compile_formats [("(unterminated", "x"), ("ok", "z")] =
      compile_formats [("ok", "z")] ∧
    (compile_formats [("ok", "z")]).length = 1 := by
  refine ⟨?_, by decide, by decide⟩
  intro l
  induction l with
  | nil => rfl
  | cons p rest ih =>
    cases p with
    | mk a b =>
      simp only [compile_formats, List.filterMap_cons]
      cases hp : parseRE a.data with
      | ok rn => simp [hp, ih]
      | error e => simp [hp, ih]

/-- Claim C5, counterexample.  The rule `("a", "\g<boom>")` compiles (its
pattern `a` is fine), but parsing its replacement template raises an
`IndexError` ("unknown group name") before the subject is even scanned;
both `except re.error` handlers in `format` leave an `IndexError`
uncaught, so the exception escapes to the caller on every input — here on
`"zzz"`, which the pattern does not even match — with either value of
`skip_tags`. -/
theorem claim_C5_counterexample :
    (compile_formats [("a", "\\g<boom>")]).length = 1 ∧
    formatX "zzz".data (compile_formats [("a", "\\g<boom>")]) false =
      .error PyErr.idxErr ∧
    formatX "zzz".data (compile_formats [("a", "\\g<boom>")]) true =
      .error PyErr.idxErr :=
  ⟨rfl, rfl, rfl⟩

/-- Claim C5, amended: the only exception that can escape `format` is the
`IndexError` raised while parsing a replacement template that names an
unknown group (`\g<name>`) — every `re.error` is caught by one of the two
`try/except re.error` handlers; and whenever no rule's template raises
that `IndexError`, `format` returns normally with the catch-all
value-level result. -/
theorem claim_C5 (text : List Char) (fs : List CRule) (b : Bool) :
    ((∃ u, formatX text fs b = .ok u) ∨
      formatX text fs b = .error PyErr.idxErr) ∧
    ((∀ r ∈ fs, isIdxErr (tmplComp r.repl) = false) →
      formatX text fs b = .ok (formatL text fs b)) := by
  cases b with
  | true =>
    rw [formatX_true]
    constructor
    · cases hfs : fmtSegsE fs (splitCap tag_re text) with
      | ok segs => exact Or.inl ⟨joinL segs, rfl⟩
      | error e =>
        cases e with
        | reErr e0 => exact Or.inl ⟨text, rfl⟩
        | idxErr => exact Or.inr rfl
    · intro h
      rw [fmtSegsE_ok fs h (splitCap tag_re text), formatL_true]
  | false =>
    rw [formatX_false]
    constructor
    · cases hc : cascadeE fs text with
      | ok u => exact Or.inl ⟨u, rfl⟩
      | error ec =>
        obtain ⟨e, cur⟩ := ec
        cases e with
        | reErr e0 => exact Or.inl ⟨cur, rfl⟩
        | idxErr => exact Or.inr rfl
    · intro h
      rw [formatL_false]
      rcases cascadeE_no_idx fs text h with ⟨u, hu⟩ | ⟨e, cur, he⟩
      · rw [hu]
      · rw [he]

/-- Claim C5 witness: none of the sixteen default templates names a group
by name, so with the default rules `format` returns normally on the input
`"*a*"` with either value of `skip_tags`. -/
theorem claim_C5_witness :
    (∀ r ∈ defFmts, isIdxErr (tmplComp r.repl) = false) ∧
    formatX "*a*".data defFmts false =
      .ok (formatL "*a*".data defFmts false) ∧
    formatX "*a*".data defFmts true =
      .ok (formatL "*a*".data defFmts true) :=
  ⟨by decide,
    (claim_C5 "*a*".data defFmts false).2 (by decide),
    (claim_C5 "*a*".data defFmts true).2 (by decide)⟩

/-- Claim C6: with the compiled default rules, the doubled-delimiter rules
run before the single-delimiter ones: `"``x``"` becomes a gray span holding
`x` and `"##x##"` a green span holding `x`, with either `skip_tags`. -/
theorem claim_C6 :
    format "``x``" defFmts false = "<font color=\"gray\">x</font>" ∧
    format "``x``" defFmts true = "<font color=\"gray\">x</font>" ∧
    format "##x##" defFmts false = "<font color=\"green\">x</font>" ∧
    format "##x##" defFmts true = "<font color=\"green\">x</font>" :=
  ⟨by decide, by decide, by decide, by decide⟩

/-- Claim C7: span matching is non-greedy: `"*a*b*c*"` produces two
separate bold spans around the literal `b`. -/
theorem claim_C7 :
    format "*a*b*c*" defFmts false = "<b>a</b>b<b>c</b>" ∧
    format "*a*b*c*" defFmts true = "<b>a</b>b<b>c</b>" :=
  ⟨by decide, by decide⟩

/-- Claim C8: an escaped delimiter never opens a span: `"\*text*"` gains no
bold markup; the unescape rule turns the leading `\*` into a literal `*`. -/
theorem claim_C8 :
    format "\\*text*" defFmts false = "*text*" ∧
    format "\\*text*" defFmts true = "*text*" :=
  ⟨by decide, by decide⟩

/-- Claim C9: text containing none of the shorthand delimiter characters
`[ ] { } _ * ` #` is returned unchanged by `format` with the compiled
default rules, with either value of `skip_tags`. -/
theorem claim_C9 (t : List Char) (b : Bool) (ht : ∀ c ∈ t, c ∉ delims) :
    formatL t defFmts b = t := by
  cases b with
  | false =>
    show (match cascadeE defFmts t with
      | .ok u => u | .error ec => ec.2) = t
    rw [cascadeE_id defFmts t (fun r hr => defFmts_rule_id r hr t ht)]
  | true =>
    show joinL (fmtSegs defFmts (splitCap tag_re t)) = t
    have hjoin : joinL (splitCap tag_re t) = t :=
      splitCap_join tagInner tag_re tag_re_eq t
    have hseg : ∀ s ∈ splitCap tag_re t, ∀ c ∈ s, c ∉ delims := by
      intro s hs c hc
      have hct : c ∈ t := by
        rw [← hjoin]
        exact mem_joinL _ s hs c hc
      exact ht c hct
    rw [fmtSegs_map]
    have hmap : (splitCap tag_re t).map
        (fun s => if s.head? = some '<' then s else applySeg defFmts s) =
        (splitCap tag_re t).map id := by
      apply List.map_congr_left
      intro s hs
      by_cases hlt : s.head? = some '<'
      · rw [if_pos hlt]
        rfl
      · rw [if_neg hlt]
        exact applySeg_id defFmts s
          (fun r hr => defFmts_rule_id r hr s (hseg s hs))
    rw [hmap, List.map_id, hjoin]

/-- Claim C9 witness at text `"hello <p> 1+1"` (no delimiter characters). -/
theorem claim_C9_witness :
    (∀ c ∈ "hello <p> 1+1".data, c ∉ delims) ∧
    formatL "hello <p> 1+1".data defFmts true = "hello <p> 1+1".data ∧
    formatL "hello <p> 1+1".data defFmts false = "hello <p> 1+1".data :=
  ⟨by decide,
    claim_C9 "hello <p> 1+1".data true (by decide),
    claim_C9 "hello <p> 1+1".data false (by decide)⟩

/-- Claim C10, counterexample.  In `"x<y *b*"` the `<` is never followed by
`>`, so the claim demands that everything from the `<` on passes through
with no rule applied; but the whole text is one split segment beginning
with `x`, so the cascade runs over all of it and rewrites `*b*` after the
`<`. -/
theorem claim_C10_counterexample :
    format "x<y *b*" defFmts true = "x<y <b>b</b>" ∧
    ("x<y <b>b</b>" : String) ≠ "x<y *b*" :=
  ⟨by decide, by decide⟩

/-- Claim C10, amended: the protection applies to split segments whose
first character is `<`, not to every unmatched `<`: when the text itself
begins with `<` and holds no `>` (so the tag pattern never matches), the
whole input is one protected segment and is returned unchanged with
`skip_tags=True`, for every rule list. -/
theorem claim_C10 (t : List Char) (fs : List CRule)
    (h1 : t.head? = some '<') (h2 : '>' ∉ t) :
    formatL t fs true = t := by
  have hreq : reqSet ['>'] tag_re = true := by decide
  have hnone : searchNE (fuelFor tag_re t) tag_re t true = none :=
    searchNE_none _ tag_re ['>'] t true hreq (by
      intro c hc
      simp at hc
      rw [hc]
      exact h2)
  have hsplit : splitCap tag_re t = [t] := by
    unfold splitCap splitGo
    rw [hnone]
  show joinL (fmtSegs fs (splitCap tag_re t)) = t
  rw [hsplit]
  simp [fmtSegs, h1, joinL]

/-- Claim C10 witness at text `"<img *x*"`. -/
theorem claim_C10_witness :
    ("<img *x*".data.head? = some '<') ∧ '>' ∉ "<img *x*".data ∧
    formatL "<img *x*".data defFmts true = "<img *x*".data :=
  ⟨by decide, by decide, claim_C10 "<img *x*".data defFmts rfl (by decide)⟩

/-! ### Decimal digits -/

theorem digCh_digit (d : Nat) (hd : d < 10) : isDigCh (digCh d) = true := by
  interval_cases d <;> decide

theorem digVal_digCh (d : Nat) (hd : d < 10) : digVal (digCh d) = d := by
  interval_cases d <;> decide

theorem natDecimal_digits (k : Nat) : ∀ c ∈ natDecimal k, isDigCh c = true := by
  intro c hc
  unfold natDecimal at hc
  split at hc
  · simp at hc
    rw [hc]
    decide
  · simp only [List.mem_map, List.mem_reverse] at hc
    obtain ⟨d, hd, hdc⟩ := hc
    rw [← hdc]
    exact digCh_digit d (Nat.digits_lt_base (by norm_num) hd)

theorem natDecimal_ne_nil (k : Nat) : natDecimal k ≠ [] := by
  unfold natDecimal
  split
  · simp
  · next hk =>
    simp only [ne_eq, List.map_eq_nil_iff, List.reverse_eq_nil_iff]
    exact Nat.digits_ne_nil_iff_ne_zero.mpr hk

theorem foldl_digits (l : List Nat) (hl : ∀ d ∈ l, d < 10) :
    ∀ acc : Nat,
      (l.map digCh).foldl (fun a c => 10 * a + digVal c) acc =
        l.foldl (fun a d => 10 * a + d) acc := by
  induction l with
  | nil => intro acc; rfl
  | cons d l' ih =>
    intro acc
    simp only [List.map_cons, List.foldl_cons]
    rw [digVal_digCh d (hl d (by simp))]
    exact ih (fun d' hd' => hl d' (by simp [hd'])) _

theorem foldl_reverse_ofDigits (l : List Nat) :
    l.reverse.foldl (fun a d => 10 * a + d) 0 = Nat.ofDigits 10 l := by
  induction l with
  | nil => rfl
  | cons d l' ih =>
    simp only [List.reverse_cons, List.foldl_append, List.foldl_cons,
      List.foldl_nil, ih, Nat.ofDigits_cons]
    ring

theorem decToNat_natDecimal (k : Nat) : decToNat (natDecimal k) = k := by
  by_cases hk : k = 0
  · rw [hk]
    decide
  · unfold decToNat natDecimal
    rw [if_neg hk, foldl_digits _ (fun d hd =>
      Nat.digits_lt_base (by norm_num) (List.mem_reverse.mp hd)),
      foldl_reverse_ofDigits, Nat.ofDigits_digits]

theorem digit_ne_fffc (c : Char) (h : isDigCh c = true) : c ≠ '￼' := by
  intro hc
  rw [hc] at h
  simp [isDigCh, clsMem, clsItMem] at h


theorem isDigCh_fffc : isDigCh '￼' = false := by decide

theorem digPre_prefix (ds R : List Char)
    (hds : ∀ c ∈ ds, isDigCh c = true) :
    digPre (ds ++ '￼' :: R) = ds.length := by
  induction ds with
  | nil => simp [digPre, isDigCh_fffc]
  | cons c ds' ih =>
    simp only [List.cons_append, digPre, hds c (by simp), if_pos]
    show digPre (ds' ++ '￼' :: R) + 1 = (c :: ds').length
    rw [ih (fun c' hc' => hds c' (by simp [hc']))]
    simp

theorem star_digit (n : Nat) :
    ∀ (s : List Char) (atst : Bool) (cp : Caps), s.length < n →
      mtchF n (RE.star true digCls) s atst cp =
        (List.range (digPre s + 1)).map
          (fun i => (s.drop (digPre s - i), cp)) := by
  induction n with
  | zero =>
    intro s atst cp h
    exact absurd h (Nat.not_lt_zero _)
  | succ n ih =>
    intro s atst cp h
    show ((mtchF n digCls s atst cp).filter
        (fun rc => decide (rc.1.length < s.length))).flatMap
      (fun rc => mtchF n (.star true digCls) rc.1 false rc.2) ++ [(s, cp)] = _
    cases s with
    | nil =>
      have hin : mtchF n digCls [] atst cp = [] := by
        cases n <;> rfl
      rw [hin]
      simp [digPre, List.range_succ]
    | cons c s' =>
      by_cases hc : isDigCh c = true
      · have hn1 : s'.length < n := by
          simp at h
          omega
        cases n with
        | zero => exact absurd hn1 (Nat.not_lt_zero _)
        | succ m =>
          have hin : mtchF (m + 1) digCls (c :: s') atst cp = [(s', cp)] := by
            show (if clsMem false [ClsIt.rng '0' '9'] c
              then [(s', cp)] else []) = [(s', cp)]
            exact if_pos hc
          rw [hin]
          have hfil : [(s', cp)].filter
              (fun rc => decide (rc.1.length < (c :: s').length)) =
              [(s', cp)] := by
            simp
          rw [hfil]
          simp only [List.flatMap_cons, List.flatMap_nil, List.append_nil]
          rw [ih s' false cp hn1]
          have hdp : digPre (c :: s') = digPre s' + 1 := by
            simp [digPre, hc]
          rw [hdp]
          conv_rhs => rw [List.range_succ]
          rw [List.map_append]
          congr 1
          · apply List.map_congr_left
            intro i hi
            simp only [List.mem_range] at hi
            have hii : digPre s' + 1 - i = (digPre s' - i) + 1 := by omega
            rw [hii, List.drop_succ_cons]
          · simp
      · have hin : mtchF n digCls (c :: s') atst cp = [] := by
          cases n with
          | zero => rfl
          | succ m =>
            show (if clsMem false [ClsIt.rng '0' '9'] c
              then [(s', cp)] else []) = []
            exact if_neg (fun hcc => hc hcc)
        rw [hin]
        have hdp : digPre (c :: s') = 0 := by
          simp [digPre, hc]
        rw [hdp]
        simp [List.range_succ]

theorem flatMap_pure (l : List (List Char × Caps)) :
    l.flatMap (fun rc => [rc]) = l := by
  induction l with
  | nil => rfl
  | cons x xs ih => simp only [List.flatMap_cons, ih, List.singleton_append]

theorem thread_match (m : Nat) (ds R : List Char) (atst : Bool)
    (hds : ∀ c ∈ ds, isDigCh c = true)
    (hm : ds.length + R.length + 1 < m) :
    mtchF (m + 5) thread_re ('￼' :: (ds ++ '￼' :: R)) atst [] =
      [(R, [(1, ds)])] := by
  rw [thread_re_eq]
  set tail := ds ++ '￼' :: R with htail
  show (mtchF (m + 4) (RE.ch '￼') ('￼' :: tail) atst []).flatMap
      (fun rc => mtchF (m + 4)
        (RE.seq (.grp 1 (.seq (.star true digCls) .eps))
          (.seq (.ch '￼') .eps))
        rc.1 (atst && (rc.1.length == ('￼' :: tail).length)) rc.2) =
      [(R, [(1, ds)])]
  have h1 : mtchF (m + 4) (RE.ch '￼') ('￼' :: tail) atst [] =
      [(tail, [])] := by
    show (if ('￼' : Char) = '￼' then [(tail, ([] : Caps))] else []) =
      [(tail, [])]
    rw [if_pos rfl]
  rw [h1]
  simp only [List.flatMap_cons, List.flatMap_nil, List.append_nil]
  have hb : (tail.length == ('￼' :: tail).length) = false := by
    simp
  rw [hb, Bool.and_false]
  show (mtchF (m + 3) (RE.grp 1 (.seq (.star true digCls) .eps))
      tail false []).flatMap
      (fun rc => mtchF (m + 3) (RE.seq (.ch '￼') .eps) rc.1
        (false && (rc.1.length == tail.length)) rc.2) = [(R, [(1, ds)])]
  simp only [Bool.false_and]
  have hlen_tail : tail.length < m + 1 := by
    rw [htail]
    simp only [List.length_append, List.length_cons]
    omega
  have hL : digPre tail = ds.length := digPre_prefix ds R hds
  have h2 : mtchF (m + 3) (RE.grp 1 (.seq (.star true digCls) .eps))
      tail false [] =
      (List.range (ds.length + 1)).map
        (fun i => (tail.drop (ds.length - i),
          [(1, tail.take
            (tail.length - (tail.drop (ds.length - i)).length))])) := by
    show (mtchF (m + 2) (RE.seq (.star true digCls) .eps) tail false []).map
        (fun rc => (rc.1,
          (1, tail.take (tail.length - rc.1.length)) :: rc.2)) = _
    have h3 : mtchF (m + 2) (RE.seq (.star true digCls) .eps) tail false [] =
        mtchF (m + 1) (RE.star true digCls) tail false [] := by
      show (mtchF (m + 1) (RE.star true digCls) tail false []).flatMap
          (fun rc => mtchF (m + 1) RE.eps rc.1
            (false && (rc.1.length == tail.length)) rc.2) = _
      have h4 : ∀ rc : List Char × Caps,
          mtchF (m + 1) RE.eps rc.1
            (false && (rc.1.length == tail.length)) rc.2 = [rc] :=
        fun rc => rfl
      simp only [h4]
      exact flatMap_pure _
    rw [h3, star_digit (m + 1) tail false [] hlen_tail, hL, List.map_map]
    rfl
  rw [h2, List.flatMap_map, List.range_succ_eq_map, List.flatMap_cons,
    List.flatMap_map]
  have hdropL : tail.drop ds.length = '￼' :: R := by
    rw [htail]
    exact List.drop_left ds ('￼' :: R)
  have htakeL : tail.take (tail.length - ('￼' :: R).length) = ds := by
    rw [htail]
    have hlen2 : (ds ++ '￼' :: R).length - ('￼' :: R).length = ds.length := by
      simp
    rw [hlen2]
    exact List.take_left ds ('￼' :: R)
  have hghead : mtchF (m + 3) (RE.seq (.ch '￼') .eps) ('￼' :: R)
      false [(1, ds)] = [(R, [(1, ds)])] := by
    show (mtchF (m + 2) (RE.ch '￼') ('￼' :: R) false [(1, ds)]).flatMap
        (fun rc => mtchF (m + 2) RE.eps rc.1
          (false && (rc.1.length == ('￼' :: R).length)) rc.2) = _
    have hch : mtchF (m + 2) (RE.ch '￼') ('￼' :: R) false [(1, ds)] =
        [(R, [(1, ds)])] := by
      show (if ('￼' : Char) = '￼'
        then [(R, [(1, ds)])] else []) = [(R, [(1, ds)])]
      rw [if_pos rfl]
    rw [hch]
    rfl
  have hsub0 : ds.length - 0 = ds.length := Nat.sub_zero _
  rw [hsub0, hdropL, htakeL, hghead]
  have hrest : (List.range ds.length).flatMap
      (fun i => mtchF (m + 3) (RE.seq (.ch '￼') .eps)
        (tail.drop (ds.length - Nat.succ i)) false
        [(1, tail.take
          (tail.length - (tail.drop (ds.length - Nat.succ i)).length))]) =
      [] := by
    rw [List.flatMap_eq_nil_iff]
    intro i hi
    simp only [List.mem_range] at hi
    have hle : ds.length - (i + 1) ≤ ds.length := by omega
    have hdrop : tail.drop (ds.length - (i + 1)) =
        ds.drop (ds.length - (i + 1)) ++ '￼' :: R := by
      rw [htail]
      exact List.drop_append_of_le_length hle
    have hne : ds.drop (ds.length - (i + 1)) ≠ [] := by
      intro hnil
      have hlen3 := congrArg List.length hnil
      simp at hlen3
      omega
    obtain ⟨d, dr, hd⟩ := List.exists_cons_of_ne_nil hne
    have hdmem : d ∈ ds := List.mem_of_mem_drop (hd ▸ List.mem_cons_self d dr)
    have hdne : d ≠ '￼' := digit_ne_fffc d (hds d hdmem)
    show mtchF (m + 3) (RE.seq (.ch '￼') .eps)
      (tail.drop (ds.length - (i + 1))) false
      [(1, tail.take
        (tail.length - (tail.drop (ds.length - (i + 1))).length))] = []
    rw [hdrop, hd]
    show (mtchF (m + 2) (RE.ch '￼') (d :: (dr ++ '￼' :: R)) false
        [(1, tail.take
          (tail.length - (d :: (dr ++ '￼' :: R)).length))]).flatMap
      (fun rc => mtchF (m + 2) RE.eps rc.1
        (false && (rc.1.length == (d :: (dr ++ '￼' :: R)).length)) rc.2) = []
    have hch2 : mtchF (m + 2) (RE.ch '￼') (d :: (dr ++ '￼' :: R)) false
        [(1, tail.take
          (tail.length - (d :: (dr ++ '￼' :: R)).length))] = [] := by
      show (if d = '￼' then _ else []) = []
      rw [if_neg hdne]
    rw [hch2]
    rfl
  rw [hrest]
  simp

theorem thread_no_match (n : Nat) (s : List Char) (atst : Bool) (cp : Caps)
    (h : s.head? ≠ some '￼') : mtchF n thread_re s atst cp = [] := by
  rw [thread_re_eq]
  cases n with
  | zero => rfl
  | succ k =>
    show (mtchF k (RE.ch '￼') s atst cp).flatMap
      (fun rc => mtchF k
        (RE.seq (.grp 1 (.seq (.star true digCls) .eps))
          (.seq (.ch '￼') .eps))
        rc.1 (atst && (rc.1.length == s.length)) rc.2) = []
    have hch : mtchF k (RE.ch '￼') s atst cp = [] := by
      cases k with
      | zero => rfl
      | succ j =>
        cases s with
        | nil => rfl
        | cons c s' =>
          show (if c = '￼' then [(s', cp)] else []) = []
          rw [if_neg]
          intro hc
          exact h (by rw [hc]; rfl)
    rw [hch]
    rfl

theorem searchNE_thread (fl : Nat) :
    ∀ (u : List Char) (ds R : List Char) (atst : Bool),
      (∀ c ∈ u, c ≠ '￼') → (∀ c ∈ ds, isDigCh c = true) →
      u.length + ds.length + R.length + 8 ≤ fl →
      searchNE fl thread_re (u ++ '￼' :: (ds ++ '￼' :: R)) atst =
        some (u, '￼' :: (ds ++ ['￼']), [(1, ds)], R) := by
  intro u
  induction u with
  | nil =>
    intro ds R atst hu hds hfl
    obtain ⟨m, hm⟩ : ∃ m, fl = m + 5 := ⟨fl - 5, by omega⟩
    have hm2 : ds.length + R.length + 1 < m := by omega
    subst hm
    have hmatch := thread_match m ds R atst hds hm2
    simp only [List.nil_append]
    simp only [searchNE, hmatch, List.head?_cons]
    have hlt : R.length < ('￼' :: (ds ++ '￼' :: R)).length := by
      simp
      omega
    rw [if_pos hlt]
    have hdecomp : '￼' :: (ds ++ '￼' :: R) = ('￼' :: (ds ++ ['￼'])) ++ R := by
      simp
    have hlen : ('￼' :: (ds ++ '￼' :: R)).length - R.length =
        ('￼' :: (ds ++ ['￼'])).length := by
      simp
      omega
    rw [hlen]
    conv_lhs => rw [hdecomp]
    rw [List.take_left]
  | cons c u' ih =>
    intro ds R atst hu hds hfl
    have hc : c ≠ '￼' := hu c (by simp)
    have hnom : mtchF fl thread_re
        ((c :: u') ++ '￼' :: (ds ++ '￼' :: R)) atst [] = [] := by
      apply thread_no_match
      simp only [List.cons_append, List.head?_cons]
      intro hcon
      exact hc (by injection hcon)
    simp only [List.cons_append] at hnom ⊢
    simp only [searchNE, hnom, List.head?_nil]
    rw [ih ds R false (fun c' h' => hu c' (by simp [h'])) hds (by
      simp only [List.length_cons] at hfl
      omega)]
    rfl

theorem allNoF_evensNoF : ∀ (ps : List (List Char)),
    (∀ s ∈ ps, '￼' ∉ s) → evensNoF ps
  | [], _ => trivial
  | [t], h => h t (by simp)
  | t :: g :: rest, h =>
    ⟨h t (by simp),
      allNoF_evensNoF rest (fun s hs => h s (by simp [hs]))⟩

theorem phd_length (k : Nat) : 3 ≤ (phd k).length := by
  unfold phd
  have hne := natDecimal_ne_nil k
  have hpos : 0 < (natDecimal k).length := List.length_pos.mpr hne
  simp
  omega

theorem numPh_le : ∀ (ps : List (List Char)) (k : Nat),
    numPh ps ≤ (joinL (placehold k ps).1).length
  | [], _ => by simp [numPh, placehold, joinL]
  | [t], _ => by simp [numPh, placehold, joinL]
  | t :: g :: rest, k => by
    have ih := numPh_le rest (k + 1)
    have h3 := phd_length k
    simp only [numPh, placehold, joinL, List.length_append]
    omega

theorem reqSet_thread : reqSet ['￼'] thread_re = true := by decide

theorem splitGo_rethread (fl : Nat) (allTags : List (List Char)) :
    ∀ (n : Nat) (ps : List (List Char)) (k : Nat) (atst : Bool),
      evensNoF ps →
      (placehold k ps).2 = allTags.drop k →
      numPh ps ≤ n →
      (joinL (placehold k ps).1).length + 8 ≤ fl →
      joinL (rethread allTags
        (splitGo fl thread_re n (joinL (placehold k ps).1) atst)) =
        joinL ps := by
  intro n
  induction n with
  | zero =>
    intro ps k atst hNoF hTags hn hfl
    cases ps with
    | nil => simp [placehold, joinL, splitGo, rethread]
    | cons t rest =>
      cases rest with
      | nil => simp [placehold, joinL, splitGo, rethread]
      | cons g rest' => simp [numPh] at hn
  | succ n ih =>
    intro ps k atst hNoF hTags hn hfl
    cases ps with
    | nil =>
      have hnom : mtchF fl thread_re [] atst [] = [] :=
        thread_no_match fl [] atst [] (by simp)
      simp only [placehold, joinL, splitGo, searchNE, hnom, List.head?_nil,
        rethread]
      rfl
    | cons t rest =>
      cases rest with
      | nil =>
        have hNoFt : '￼' ∉ t := hNoF
        have hnone : searchNE fl thread_re (joinL [t]) atst = none := by
          apply searchNE_none fl thread_re ['￼']
          exact reqSet_thread
          intro c hc
          simp at hc
          rw [hc]
          simp only [joinL]
          simp
          exact hNoFt
        simp only [placehold]
        simp only [splitGo, hnone, rethread]
        simp [joinL]
      | cons g rest' =>
        obtain ⟨hT, hNoF'⟩ := hNoF
        have hT' : joinL (placehold k (t :: g :: rest')).1 =
            t ++ '￼' :: (natDecimal k ++ '￼' ::
              joinL (placehold (k + 1) rest').1) := by
          simp [placehold, joinL, phd]
        have hfl2 : t.length + (natDecimal k).length +
            (joinL (placehold (k + 1) rest').1).length + 8 ≤ fl := by
          rw [hT'] at hfl
          simp only [List.length_append, List.length_cons] at hfl
          omega
        have hse := searchNE_thread fl t (natDecimal k)
          (joinL (placehold (k + 1) rest').1) atst
          (fun c hc he => hT (he ▸ hc))
          (natDecimal_digits k) hfl2
        rw [hT']
        simp only [splitGo, hse]
        have hcap : capLookupD 1 [(1, natDecimal k)] [] = natDecimal k := by
          simp [capLookupD, capLookup]
        rw [hcap]
        simp only [rethread, decToNat_natDecimal]
        have hdk : allTags.drop k = g :: (placehold (k + 1) rest').2 := by
          rw [← hTags]
          simp [placehold]
        have hgetD : allTags.getD k [] = g := by
          have h0 : allTags.getD k [] = (allTags.drop k).getD 0 [] := by
            simp [List.getD_eq_getElem?_getD, List.getElem?_drop]
          rw [h0, hdk]
          rfl
        rw [hgetD]
        have hrec := ih rest' (k + 1) false hNoF'
          (by
            have := congrArg List.tail hdk
            simp only [List.tail_cons] at this
            rw [List.tail_drop] at this
            exact this.symm)
          (by
            simp only [numPh] at hn
            omega)
          (by
            rw [hT'] at hfl
            simp only [List.length_append, List.length_cons] at hfl
            omega)
        simp only [joinL] at hrec ⊢
        rw [hrec]

/-- Claim C3: on input free of the object-replacement character U+FFFC,
`strip_tags` replaces the k-th img/audio tag span (left to right, from 0)
by the placeholder `U+FFFC, decimal k, U+FFFC` and collects the original
spans in order (this is `placehold` below, mirroring the source loop), and
`thread_tags` applied to the stripped text with that side list restores
exactly the original input — the composition is the identity when no rule
runs in between. -/
theorem claim_C3 (t : List Char) (hF : '￼' ∉ t) :
    thread_tags (strip_tags t).1 (strip_tags t).2 = t := by
  have hjoin : joinL (splitCap strip_re t) = t :=
    splitCap_join stripInner strip_re strip_re_eq t
  have hnoF : ∀ s ∈ splitCap strip_re t, '￼' ∉ s := by
    intro s hs hc
    exact hF (hjoin ▸ mem_joinL (splitCap strip_re t) s hs _ hc)
  have hEv : evensNoF (splitCap strip_re t) := allNoF_evensNoF _ hnoF
  have hmain := splitGo_rethread
    (fuelFor thread_re (joinL (placehold 0 (splitCap strip_re t)).1))
    ((placehold 0 (splitCap strip_re t)).2)
    ((joinL (placehold 0 (splitCap strip_re t)).1).length + 1)
    (splitCap strip_re t) 0 true hEv (by simp)
    (Nat.le_succ_of_le (numPh_le _ 0))
    (by
      unfold fuelFor
      have hsz : 2 ≤ sizeRE thread_re + 2 := by omega
      have hmul := Nat.mul_le_mul_left
        ((joinL (placehold 0 (splitCap strip_re t)).1).length + 1) hsz
      omega)
  calc thread_tags (strip_tags t).1 (strip_tags t).2
      = joinL (splitCap strip_re t) := hmain
    _ = t := hjoin

/-- Claim C3 witness at `"a<img src=x.png>b<audio 1>*c*"`. -/
theorem claim_C3_witness :
    ('￼' ∉ "a<img src=x.png>b<audio 1>*c*".data) ∧
    thread_tags (strip_tags "a<img src=x.png>b<audio 1>*c*".data).1
        (strip_tags "a<img src=x.png>b<audio 1>*c*".data).2 =
      "a<img src=x.png>b<audio 1>*c*".data :=
  ⟨by decide, claim_C3 "a<img src=x.png>b<audio 1>*c*".data (by decide)⟩
